import Mathlib

/-!
Verification of the semantic-similarity synonym finder (`synonyms.py`).

The Python program stores sparse vectors and descriptor tables as `dict`s.
We embed a `dict` as an association list with Python's assignment semantics:
assigning to an existing key replaces its value in place, assigning to a new
key appends it.  Co-occurrence counts, produced by repeated `+ 1` from `0`,
are embedded as naturals; the magnitudes handled by `cosine_similarity`,
which in Python range over arbitrary numbers, are embedded as rationals, and
the final cosine value, computed in Python with `** 0.5`, is embedded as a
real number using `Real.sqrt`.
-/

/-- Python `d[k]` / `k in d` lookup on a dict embedded as an association list. -/
def dlookup {β : Type} (d : List (String × β)) (k : String) : Option β :=
  match d with
  | [] => none
  | (k', v) :: rest => if k' = k then some v else dlookup rest k

/-- Python `d[k] = v`: replace the value of an existing key in place, otherwise
append the new binding at the end. -/
def dinsert {β : Type} (d : List (String × β)) (k : String) (v : β) : List (String × β) :=
  match d with
  | [] => [(k, v)]
  | (k', v') :: rest => if k' = k then (k, v) :: rest else (k', v') :: dinsert rest k v

/-- A sparse vector as consumed by `cosine_similarity`: a Python dict from word
to numeric magnitude. -/
abbrev SparseVec := List (String × ℚ)

/-- A semantic descriptor: a Python dict from word to co-occurrence count. -/
abbrev SDict := List (String × ℕ)

/-- A semantic-descriptor table: a Python dict from word to its descriptor. -/
abbrev Table := List (String × SDict)

/-- Sum of squares of the magnitudes of a sparse vector, as accumulated by the
`base1` / `base2` loops of `cosine_similarity` (and by `norm`). -/
def sumSquares (v : SparseVec) : ℚ :=
  v.foldl (fun acc p => acc + p.2 * p.2) 0

/-- The dot-product loop of `cosine_similarity`: for each item of `vec1` whose
key is also in `vec2`, add the product of the two magnitudes. -/
def dotProd (v1 v2 : SparseVec) : ℚ :=
  v1.foldl (fun acc p =>
    acc + match dlookup v2 p.1 with
          | some w => p.2 * w
          | none => 0) 0

/-- Embedding of `cosine_similarity(vec1, vec2)`: if either sum of squares is
zero the sentinel `-1.0` is returned, otherwise `top / (base1**0.5 * base2**0.5)`,
with the Python `** 0.5` embedded as `Real.sqrt` (the bases are sums of squares,
hence non-negative). -/
noncomputable def cosine_similarity (v1 v2 : SparseVec) : ℝ :=
  if sumSquares v1 = 0 ∨ sumSquares v2 = 0 then -1
  else (dotProd v1 v2 : ℝ) /
    (Real.sqrt (sumSquares v1 : ℝ) * Real.sqrt (sumSquares v2 : ℝ))

/-- One execution of `descriptors[word][other_word] = descriptors[word].get(other_word, 0) + 1`
(the row `descriptors[word]` is read with default `{}`, matching the program
state in which the row always exists at this point). -/
def bumpPair (t : Table) (word other : String) : Table :=
  let d := (dlookup t word).getD []
  dinsert t word (dinsert d other (((dlookup d other).getD 0) + 1))

/-- The `for other_word in unique_words` loop of `build_semantic_descriptors`:
bump the count of every word of `others` different from `word` in the row of
`word`. -/
def bumpOthers (t : Table) (word : String) (others : List String) : Table :=
  others.foldl (fun acc other => if other = word then acc else bumpPair acc word other) t

/-- The body of the `for word in unique_words` loop of `build_semantic_descriptors`:
ensure `word` has a row (creating an empty dict when absent), then bump the count
of every other distinct word of the sentence. -/
def addWord (t : Table) (uniq : List String) (word : String) : Table :=
  bumpOthers (if (dlookup t word).isSome then t else dinsert t word []) word uniq

/-- The `for word in unique_words` loop itself, iterating over `ws`. -/
def addWords (t : Table) (uniq : List String) (ws : List String) : Table :=
  ws.foldl (fun acc word => addWord acc uniq word) t

/-- Processing of one sentence by `build_semantic_descriptors`: iterate over the
set of distinct words of the sentence (embedded as `List.dedup`; the result does
not depend on the iteration order, each row being updated independently). -/
def processSentence (t : Table) (sentence : List String) : Table :=
  addWords t sentence.dedup sentence.dedup

/-- Embedding of `build_semantic_descriptors(sentences)`. -/
def build_semantic_descriptors (sentences : List (List String)) : Table :=
  sentences.foldl processSentence []

/-- Two-level lookup `descriptors[w][v]` in a descriptor table, `none` when
either key is absent. -/
def tlookup (t : Table) (w v : String) : Option ℕ :=
  match dlookup t w with
  | none => none
  | some d => dlookup d v

/-- Number of sentences containing both `w` and `v` (each sentence counted once,
however many times the words repeat inside it). -/
def coCount (ss : List (List String)) (w v : String) : ℕ :=
  ss.countP (fun s => decide (w ∈ s) && decide (v ∈ s))

/-- The similarity the selector uses for a `(word, choice)` pair: `-1` when the
word or the choice is absent from the table, otherwise the injected similarity
function applied to the two descriptors. -/
def choiceSim {α : Type} [Neg α] [One α]
    (sd : Table) (similarity_fn : SDict → SDict → α) (word c : String) : α :=
  match dlookup sd word with
  | none => -1
  | some dw =>
    match dlookup sd c with
    | none => -1
    | some dc => similarity_fn dw dc

/-- Embedding of `most_similar_word(word, choices, semantic_descriptors, similarity_fn)`:
start with best similarity `-1` and best choice `choices[0]`, and replace the
best pair only when a strictly greater similarity is found.  The similarity type
is any linearly ordered type with `-1`, matching the injected-function design. -/
def most_similar_word {α : Type} [LinearOrder α] [Neg α] [One α]
    (word : String) (choices : List String) (sd : Table)
    (similarity_fn : SDict → SDict → α) : String :=
  (choices.foldl
    (fun acc choice =>
      let similarity := choiceSim sd similarity_fn word choice
      if acc.1 < similarity then (similarity, choice) else acc)
    ((-1 : α), choices.headD "")).2

/-- Splitting of a character list at whitespace, keeping the (possibly empty)
chunks between whitespace characters. -/
def wsTokens (cs : List Char) : List (List Char) :=
  cs.foldr (fun c acc =>
    if c.isWhitespace then [] :: acc
    else match acc with
         | [] => [[c]]
         | t :: ts => (c :: t) :: ts) [[]]

/-- Python `line.strip().split()`: the non-empty maximal runs of non-whitespace
characters of the line, in order. -/
def pySplit (s : String) : List String :=
  ((wsTokens s.data).filter (fun t => t ≠ [])).map (fun cs => String.mk cs)

/-- The loop body of `run_similarity_test`: split the line into fields, skip it
when fewer than 3 fields are present, otherwise bump the correct count when the
selector returns the labeled answer `words[1]` and bump the total count. -/
def questionStep {α : Type} [LinearOrder α] [Neg α] [One α]
    (sd : Table) (similarity_fn : SDict → SDict → α)
    (acc : ℕ × ℕ) (line : String) : ℕ × ℕ :=
  let words := pySplit line
  if 3 ≤ words.length then
    let guess := most_similar_word (words.headD "") (words.drop 2) sd similarity_fn
    ((if guess = words.getD 1 "" then acc.1 + 1 else acc.1), acc.2 + 1)
  else acc

/-- Embedding of `run_similarity_test(filename, semantic_descriptors, similarity_fn)`,
with the file abstracted as its list of lines.  Lines with fewer than 3
whitespace-separated fields are skipped; a question counts as correct when the
selector returns the labeled answer `words[1]`; the result is
`correct / total * 100`, or `0.0` when no valid question was seen. -/
def run_similarity_test {α : Type} [LinearOrder α] [Neg α] [One α]
    (lines : List String) (sd : Table)
    (similarity_fn : SDict → SDict → α) : ℚ :=
  let counts := lines.foldl (questionStep sd similarity_fn) (0, 0)
  if counts.2 = 0 then 0 else ((counts.1 : ℚ) / (counts.2 : ℚ)) * 100

/-- Specification-side description of the evaluator (for comparison with
`run_similarity_test`): the valid questions are the lines with at least 3
whitespace-separated fields. -/
def validLines (lines : List String) : List String :=
  lines.filter (fun l => 3 ≤ (pySplit l).length)

/-- Specification-side description of the evaluator: the number of valid
questions on which the selector's choice equals the labeled correct answer. -/
def correctCount {α : Type} [LinearOrder α] [Neg α] [One α] (lines : List String)
    (sd : Table) (similarity_fn : SDict → SDict → α) : ℕ :=
  (validLines lines).countP (fun l =>
    most_similar_word ((pySplit l).headD "") ((pySplit l).drop 2) sd similarity_fn
      = (pySplit l).getD 1 "")

/-- Well-formedness of an embedded dict: its keys are pairwise distinct, as for
every Python dict. -/
def WFDict {β : Type} (d : List (String × β)) : Prop :=
  (d.map Prod.fst).Nodup

/-- The magnitude of component `k` of a sparse vector, `0` when absent. -/
def getV (v : SparseVec) (k : String) : ℚ :=
  (dlookup v k).getD 0

/-- The row of `w` in a table, the empty dict when `w` is absent. -/
def rowOf (t : Table) (w : String) : SDict :=
  (dlookup t w).getD []

theorem dlookup_dinsert_self {β : Type} (d : List (String × β)) (k : String) (v : β) :
    dlookup (dinsert d k v) k = some v := by
  induction d with
  | nil => simp [dinsert, dlookup]
  | cons p rest ih =>
    by_cases h : p.1 = k
    · simp [dinsert, dlookup, h]
    · simp [dinsert, dlookup, h, ih]

theorem dlookup_dinsert_ne {β : Type} (d : List (String × β)) (k k' : String) (v : β)
    (h : k' ≠ k) : dlookup (dinsert d k v) k' = dlookup d k' := by
  have hk : ¬(k = k') := fun hh => h hh.symm
  induction d with
  | nil => simp [dinsert, dlookup, hk]
  | cons p rest ih =>
    by_cases hp : p.1 = k
    · simp [dinsert, dlookup, hp, hk]
    · simp [dinsert, dlookup, hp, ih]

theorem dlookup_head {β : Type} (p : String × β) (rest : List (String × β)) :
    dlookup (p :: rest) p.1 = some p.2 := by
  simp [dlookup]

theorem eq_nil_of_dlookup_none {β : Type} (d : List (String × β))
    (h : ∀ v, dlookup d v = none) : d = [] := by
  cases d with
  | nil => rfl
  | cons p rest => exact absurd (dlookup_head p rest) (by simp [h p.1])

theorem dlookup_bumpPair_ne (t : Table) (word other w : String) (h : w ≠ word) :
    dlookup (bumpPair t word other) w = dlookup t w := by
  unfold bumpPair
  exact dlookup_dinsert_ne _ _ _ _ h

theorem rowOf_bumpPair (t : Table) (word other : String) :
    rowOf (bumpPair t word other) word
      = dinsert (rowOf t word) other ((dlookup (rowOf t word) other).getD 0 + 1) := by
  unfold bumpPair rowOf
  rw [dlookup_dinsert_self]
  rfl

theorem isSome_bumpPair (t : Table) (word other : String) :
    (dlookup (bumpPair t word other) word).isSome := by
  unfold bumpPair
  rw [dlookup_dinsert_self]
  rfl

theorem bumpOthers_nil (t : Table) (word : String) : bumpOthers t word [] = t := rfl

theorem bumpOthers_cons (t : Table) (word o : String) (os : List String) :
    bumpOthers t word (o :: os)
      = bumpOthers (if o = word then t else bumpPair t word o) word os := rfl

theorem dlookup_bumpOthers_ne (others : List String) : ∀ (t : Table) (word w : String),
    w ≠ word → dlookup (bumpOthers t word others) w = dlookup t w := by
  induction others with
  | nil => intro t word w _; rfl
  | cons o os ih =>
    intro t word w h
    rw [bumpOthers_cons, ih _ word w h]
    by_cases ho : o = word
    · rw [if_pos ho]
    · rw [if_neg ho, dlookup_bumpPair_ne _ _ _ _ h]

theorem isSome_bumpOthers (others : List String) : ∀ (t : Table) (word : String),
    (dlookup t word).isSome → (dlookup (bumpOthers t word others) word).isSome := by
  induction others with
  | nil => intro t word h; exact h
  | cons o os ih =>
    intro t word h
    rw [bumpOthers_cons]
    by_cases ho : o = word
    · rw [if_pos ho]; exact ih t word h
    · rw [if_neg ho]; exact ih _ word (isSome_bumpPair t word o)

theorem dlookup_rowOf_bumpOthers (others : List String) : others.Nodup →
    ∀ (t : Table) (word v : String),
    dlookup (rowOf (bumpOthers t word others) word) v
      = if v ∈ others ∧ v ≠ word
        then some ((dlookup (rowOf t word) v).getD 0 + 1)
        else dlookup (rowOf t word) v := by
  induction others with
  | nil => intro _ t word v; simp [bumpOthers_nil]
  | cons o os ih =>
    intro hnd t word v
    obtain ⟨ho_nin, hos⟩ := List.nodup_cons.mp hnd
    rw [bumpOthers_cons]
    by_cases ho : o = word
    · rw [if_pos ho, ih hos t word v]
      by_cases hv : v ∈ os ∧ v ≠ word
      · rw [if_pos hv, if_pos ⟨List.mem_cons_of_mem _ hv.1, hv.2⟩]
      · rw [if_neg hv,
          if_neg (fun hc => hv ⟨(List.mem_cons.mp hc.1).resolve_left (ho ▸ hc.2), hc.2⟩)]
    · rw [if_neg ho, ih hos _ word v, rowOf_bumpPair]
      by_cases hvo : v = o
      · subst hvo
        rw [if_neg (fun hc => ho_nin hc.1), dlookup_dinsert_self,
          if_pos ⟨List.mem_cons_self _ _, ho⟩]
      · rw [dlookup_dinsert_ne _ _ _ _ hvo]
        by_cases hv : v ∈ os ∧ v ≠ word
        · rw [if_pos hv, if_pos ⟨List.mem_cons_of_mem _ hv.1, hv.2⟩]
        · rw [if_neg hv, if_neg (fun hc => hv ⟨(List.mem_cons.mp hc.1).resolve_left hvo, hc.2⟩)]

theorem rowOf_ensure (t : Table) (word : String) :
    rowOf (if (dlookup t word).isSome then t else dinsert t word []) word = rowOf t word := by
  by_cases hp : (dlookup t word).isSome
  · rw [if_pos hp]
  · rw [if_neg hp]
    unfold rowOf
    rw [dlookup_dinsert_self, Option.not_isSome_iff_eq_none.mp hp]
    rfl

theorem dlookup_addWord_ne (t : Table) (uniq : List String) (word w : String)
    (h : w ≠ word) : dlookup (addWord t uniq word) w = dlookup t w := by
  unfold addWord
  rw [dlookup_bumpOthers_ne uniq _ word w h]
  by_cases hp : (dlookup t word).isSome
  · rw [if_pos hp]
  · rw [if_neg hp, dlookup_dinsert_ne _ _ _ _ h]

theorem isSome_addWord (t : Table) (uniq : List String) (word : String) :
    (dlookup (addWord t uniq word) word).isSome := by
  unfold addWord
  apply isSome_bumpOthers
  by_cases hp : (dlookup t word).isSome
  · rw [if_pos hp]; exact hp
  · rw [if_neg hp, dlookup_dinsert_self]; rfl

theorem dlookup_rowOf_addWord (t : Table) (uniq : List String) (word v : String)
    (hu : uniq.Nodup) :
    dlookup (rowOf (addWord t uniq word) word) v
      = if v ∈ uniq ∧ v ≠ word
        then some ((dlookup (rowOf t word) v).getD 0 + 1)
        else dlookup (rowOf t word) v := by
  unfold addWord
  rw [dlookup_rowOf_bumpOthers uniq hu _ word v, rowOf_ensure]

theorem addWords_nil (t : Table) (uniq : List String) : addWords t uniq [] = t := rfl

theorem addWords_cons (t : Table) (uniq : List String) (x : String) (xs : List String) :
    addWords t uniq (x :: xs) = addWords (addWord t uniq x) uniq xs := rfl

theorem dlookup_addWords_none (ws : List String) : ∀ (t : Table) (uniq : List String)
    (w : String), dlookup (addWords t uniq ws) w = none ↔ dlookup t w = none ∧ w ∉ ws := by
  induction ws with
  | nil => intro t uniq w; simp [addWords_nil]
  | cons x xs ih =>
    intro t uniq w
    rw [addWords_cons, ih]
    by_cases hw : w = x
    · subst hw
      constructor
      · rintro ⟨h1, _⟩
        have hs := isSome_addWord t uniq w
        rw [h1] at hs
        exact absurd hs (by simp)
      · rintro ⟨_, h2⟩
        exact absurd (List.mem_cons_self w xs) h2
    · rw [dlookup_addWord_ne t uniq x w hw]
      simp [List.mem_cons, hw]

theorem dlookup_rowOf_addWords (ws : List String) : ws.Nodup →
    ∀ (t : Table) (uniq : List String), uniq.Nodup → ∀ (w v : String), v ≠ w →
    dlookup (rowOf (addWords t uniq ws) w) v
      = if w ∈ ws ∧ v ∈ uniq
        then some ((dlookup (rowOf t w) v).getD 0 + 1)
        else dlookup (rowOf t w) v := by
  induction ws with
  | nil => intro _ t uniq _ w v _; simp [addWords_nil]
  | cons x xs ih =>
    intro hnd t uniq hu w v hv
    obtain ⟨hx_nin, hxs⟩ := List.nodup_cons.mp hnd
    rw [addWords_cons, ih hxs _ uniq hu w v hv]
    by_cases hwx : w = x
    · rw [hwx] at hv ⊢
      rw [if_neg (fun hc => (hwx ▸ hx_nin : w ∉ xs) (hwx ▸ hc.1)),
        dlookup_rowOf_addWord t uniq x v hu]
      by_cases hvu : v ∈ uniq
      · rw [if_pos ⟨hvu, hv⟩, if_pos ⟨List.mem_cons_self _ _, hvu⟩]
      · rw [if_neg (fun hc => hvu hc.1), if_neg (fun hc => hvu hc.2)]
    · have hrow : rowOf (addWord t uniq x) w = rowOf t w := by
        unfold rowOf
        rw [dlookup_addWord_ne t uniq x w hwx]
      rw [hrow]
      by_cases hc : w ∈ xs ∧ v ∈ uniq
      · rw [if_pos hc, if_pos ⟨List.mem_cons_of_mem _ hc.1, hc.2⟩]
      · rw [if_neg hc, if_neg (fun hcc => hc ⟨(List.mem_cons.mp hcc.1).resolve_left hwx, hcc.2⟩)]

theorem dlookup_rowOf_addWords_self (ws : List String) : ∀ (t : Table) (uniq : List String),
    uniq.Nodup → ∀ (w : String),
    dlookup (rowOf (addWords t uniq ws) w) w = dlookup (rowOf t w) w := by
  induction ws with
  | nil => intro t uniq _ w; simp [addWords_nil]
  | cons x xs ih =>
    intro t uniq hu w
    rw [addWords_cons, ih _ uniq hu w]
    by_cases hwx : w = x
    · rw [hwx, dlookup_rowOf_addWord t uniq x x hu, if_neg (fun hc => hc.2 rfl)]
    · unfold rowOf
      rw [dlookup_addWord_ne t uniq x w hwx]

theorem dlookup_processSentence_none (t : Table) (s : List String) (w : String) :
    dlookup (processSentence t s) w = none ↔ dlookup t w = none ∧ w ∉ s := by
  unfold processSentence
  rw [dlookup_addWords_none]
  simp [List.mem_dedup]

theorem dlookup_rowOf_processSentence (t : Table) (s : List String) (w v : String)
    (hv : v ≠ w) :
    dlookup (rowOf (processSentence t s) w) v
      = if w ∈ s ∧ v ∈ s
        then some ((dlookup (rowOf t w) v).getD 0 + 1)
        else dlookup (rowOf t w) v := by
  unfold processSentence
  rw [dlookup_rowOf_addWords s.dedup (List.nodup_dedup s) t s.dedup (List.nodup_dedup s) w v hv]
  simp only [List.mem_dedup]

theorem dlookup_rowOf_processSentence_self (t : Table) (s : List String) (w : String) :
    dlookup (rowOf (processSentence t s) w) w = dlookup (rowOf t w) w := by
  unfold processSentence
  exact dlookup_rowOf_addWords_self s.dedup t s.dedup (List.nodup_dedup s) w

theorem coCount_nil (w v : String) : coCount [] w v = 0 := rfl

theorem coCount_cons (s : List String) (rest : List (List String)) (w v : String) :
    coCount (s :: rest) w v = coCount rest w v + (if w ∈ s ∧ v ∈ s then 1 else 0) := by
  unfold coCount
  rw [List.countP_cons]
  by_cases h : w ∈ s ∧ v ∈ s <;> simp [h]

theorem dlookup_foldl_none (ss : List (List String)) : ∀ (t : Table) (w : String),
    dlookup (ss.foldl processSentence t) w = none
      ↔ dlookup t w = none ∧ ∀ s ∈ ss, w ∉ s := by
  induction ss with
  | nil => intro t w; simp
  | cons s rest ih =>
    intro t w
    rw [List.foldl_cons, ih, dlookup_processSentence_none, List.forall_mem_cons]
    tauto

theorem dlookup_rowOf_foldl (ss : List (List String)) : ∀ (t : Table) (w v : String),
    v ≠ w →
    dlookup (rowOf (ss.foldl processSentence t) w) v
      = if (dlookup (rowOf t w) v).isSome ∨ 0 < coCount ss w v
        then some ((dlookup (rowOf t w) v).getD 0 + coCount ss w v)
        else none := by
  induction ss with
  | nil =>
    intro t w v _
    rw [List.foldl_nil, coCount_nil]
    cases h : dlookup (rowOf t w) v <;> simp [h]
  | cons s rest ih =>
    intro t w v hv
    rw [List.foldl_cons, ih _ w v hv, dlookup_rowOf_processSentence t s w v hv, coCount_cons]
    by_cases hs : w ∈ s ∧ v ∈ s
    · simp only [if_pos hs]
      have h1 : ((some ((dlookup (rowOf t w) v).getD 0 + 1)).isSome = true
          ∨ 0 < coCount rest w v) := Or.inl rfl
      rw [if_pos h1, if_pos (Or.inr (Nat.succ_pos (coCount rest w v)))]
      simp only [Option.getD_some]
      exact congrArg some (by omega)
    · simp only [if_neg hs, Nat.add_zero]

theorem dlookup_rowOf_foldl_self (ss : List (List String)) : ∀ (t : Table) (w : String),
    dlookup (rowOf (ss.foldl processSentence t) w) w = dlookup (rowOf t w) w := by
  induction ss with
  | nil => intro t w; rfl
  | cons s rest ih =>
    intro t w
    rw [List.foldl_cons, ih, dlookup_rowOf_processSentence_self]

theorem tlookup_eq_rowOf (t : Table) (w v : String) :
    tlookup t w v = dlookup (rowOf t w) v := by
  unfold tlookup rowOf
  cases h : dlookup t w <;> simp [dlookup]

theorem build_dlookup_none (ss : List (List String)) (w : String) :
    dlookup (build_semantic_descriptors ss) w = none ↔ ∀ s ∈ ss, w ∉ s := by
  unfold build_semantic_descriptors
  rw [dlookup_foldl_none]
  simp [dlookup]

theorem build_tlookup (ss : List (List String)) (w v : String) (hv : v ≠ w) :
    tlookup (build_semantic_descriptors ss) w v
      = if 0 < coCount ss w v then some (coCount ss w v) else none := by
  rw [tlookup_eq_rowOf]
  unfold build_semantic_descriptors
  rw [dlookup_rowOf_foldl ss [] w v hv]
  simp [rowOf, dlookup]

theorem build_tlookup_self (ss : List (List String)) (w : String) :
    tlookup (build_semantic_descriptors ss) w w = none := by
  rw [tlookup_eq_rowOf]
  unfold build_semantic_descriptors
  rw [dlookup_rowOf_foldl_self]
  simp [rowOf, dlookup]

theorem tlookup_of_dlookup (t : Table) (w v : String) (d : SDict)
    (hd : dlookup t w = some d) : tlookup t w v = dlookup d v := by
  unfold tlookup
  rw [hd]

theorem coCount_comm (ss : List (List String)) (w v : String) :
    coCount ss w v = coCount ss v w := by
  unfold coCount
  congr 1
  funext s
  exact Bool.and_comm _ _

/-- C2: for every sequence of sentences, the descriptor table built by
`build_semantic_descriptors` is symmetric: the lookup `descriptor[w][v]` always
equals the lookup `descriptor[v][w]` (in particular, whenever `descriptor[w]`
contains the key `v`, `descriptor[v]` contains the key `w` with the same count). -/
theorem build_descriptors_symmetric (ss : List (List String)) (w v : String) :
    tlookup (build_semantic_descriptors ss) w v
      = tlookup (build_semantic_descriptors ss) v w := by
  by_cases hwv : w = v
  · rw [hwv]
  · have h1 : v ≠ w := fun h => hwv h.symm
    rw [build_tlookup ss w v h1, build_tlookup ss v w hwv, coCount_comm]

/-- C3: in the table built by `build_semantic_descriptors`, the entry
`descriptor[w][v]` for distinct words `w`, `v` is present exactly when some
sentence contains both, and then equals the number of sentences containing both
(duplicate occurrences inside one sentence count once); in particular, on
the two Notes-from-the-Underground sentences the entry for `"am"` includes
`i:2, a:2, sick:1, man:2, spiteful:1`. -/
theorem build_counts_coCount :
    (∀ (ss : List (List String)) (w v : String), v ≠ w →
      tlookup (build_semantic_descriptors ss) w v
        = if 0 < coCount ss w v then some (coCount ss w v) else none)
    ∧ (tlookup (build_semantic_descriptors
          [["i", "am", "a", "sick", "man"], ["i", "am", "a", "spiteful", "man"]]) "am" "i"
            = some 2
       ∧ tlookup (build_semantic_descriptors
          [["i", "am", "a", "sick", "man"], ["i", "am", "a", "spiteful", "man"]]) "am" "a"
            = some 2
       ∧ tlookup (build_semantic_descriptors
          [["i", "am", "a", "sick", "man"], ["i", "am", "a", "spiteful", "man"]]) "am" "sick"
            = some 1
       ∧ tlookup (build_semantic_descriptors
          [["i", "am", "a", "sick", "man"], ["i", "am", "a", "spiteful", "man"]]) "am" "man"
            = some 2
       ∧ tlookup (build_semantic_descriptors
          [["i", "am", "a", "sick", "man"], ["i", "am", "a", "spiteful", "man"]]) "am" "spiteful"
            = some 1) :=
  ⟨fun ss w v hv => build_tlookup ss w v hv, by decide, by decide, by decide, by decide, by decide⟩

/-- Witness for C3: the general characterization applied to a concrete corpus
with a duplicated word inside one sentence. -/
theorem build_counts_coCount_witness :
    tlookup (build_semantic_descriptors [["a", "a", "b"]]) "a" "b"
      = if 0 < coCount [["a", "a", "b"]] "a" "b"
        then some (coCount [["a", "a", "b"]] "a" "b") else none :=
  build_counts_coCount.1 [["a", "a", "b"]] "a" "b" (by decide)

/-- C8: permuting the sequence of sentences does not change the descriptor
table as a mapping: the same words have rows, and every lookup
`descriptor[w][v]` yields the same count. -/
theorem build_perm_invariant (ss1 ss2 : List (List String)) (h : ss1.Perm ss2) :
    (∀ w, (dlookup (build_semantic_descriptors ss1) w = none
        ↔ dlookup (build_semantic_descriptors ss2) w = none))
    ∧ ∀ w v, tlookup (build_semantic_descriptors ss1) w v
        = tlookup (build_semantic_descriptors ss2) w v := by
  constructor
  · intro w
    rw [build_dlookup_none, build_dlookup_none]
    constructor
    · intro h1 s hs
      exact h1 s (h.mem_iff.mpr hs)
    · intro h1 s hs
      exact h1 s (h.mem_iff.mp hs)
  · intro w v
    by_cases hwv : v = w
    · rw [hwv, build_tlookup_self, build_tlookup_self]
    · rw [build_tlookup ss1 w v hwv, build_tlookup ss2 w v hwv]
      have hcc : coCount ss1 w v = coCount ss2 w v := h.countP_eq _
      rw [hcc]

/-- Witness for C8: exchanging the two sentences of a concrete corpus leaves a
concrete lookup unchanged. -/
theorem build_perm_invariant_witness :
    tlookup (build_semantic_descriptors [["a", "b"], ["b", "c"]]) "b" "c"
      = tlookup (build_semantic_descriptors [["b", "c"], ["a", "b"]]) "b" "c" :=
  (build_perm_invariant [["a", "b"], ["b", "c"]] [["b", "c"], ["a", "b"]] (by decide)).2 "b" "c"

/-- Counterexample to C1: in the corpus `[["hello"]]` the word `"hello"`
co-occurs with no other word, yet `build_semantic_descriptors` does give it a
key, bound to the empty dict, instead of leaving it absent. -/
theorem solo_word_present_counterexample :
    dlookup (build_semantic_descriptors [["hello"]]) "hello" = some [] := by decide

/-- C1 (amended): a word is absent from the table exactly when it occurs in no
sentence; a word that occurs but co-occurs with no other distinct word gets a
key bound to the empty descriptor dict. -/
theorem solo_word_empty_row (ss : List (List String)) (w : String) :
    (dlookup (build_semantic_descriptors ss) w = none ↔ ∀ s ∈ ss, w ∉ s)
    ∧ ((∀ s ∈ ss, w ∈ s → ∀ v ∈ s, v = w) → (∃ s ∈ ss, w ∈ s) →
        dlookup (build_semantic_descriptors ss) w = some []) := by
  refine ⟨build_dlookup_none ss w, ?_⟩
  rintro hsolo ⟨s0, hs0, hws0⟩
  obtain ⟨d, hd⟩ : ∃ d, dlookup (build_semantic_descriptors ss) w = some d := by
    cases hq : dlookup (build_semantic_descriptors ss) w with
    | none => exact absurd ((build_dlookup_none ss w).mp hq s0 hs0) (by simp [hws0])
    | some d => exact ⟨d, rfl⟩
  rw [hd]
  have hall : ∀ v, dlookup d v = none := by
    intro v
    by_cases hvw : v = w
    · have h2 := build_tlookup_self ss w
      rw [tlookup_of_dlookup _ _ _ _ hd] at h2
      rw [hvw]
      exact h2
    · have h2 := build_tlookup ss w v hvw
      have hcc : coCount ss w v = 0 := by
        unfold coCount
        rw [List.countP_eq_zero]
        intro s hs
        simp only [Bool.and_eq_true, decide_eq_true_eq, not_and]
        intro hws hvs
        exact hvw (hsolo s hs hws v hvs)
      rw [hcc] at h2
      simp only [Nat.lt_irrefl, if_false] at h2
      rw [tlookup_of_dlookup _ _ _ _ hd] at h2
      exact h2
  exact congrArg some (eq_nil_of_dlookup_none d hall)

/-- Witness for C1 (amended): a concrete corpus in which `"solo"` appears only
in a singleton-word sentence. -/
theorem solo_word_empty_row_witness :
    dlookup (build_semantic_descriptors [["solo", "solo"], ["x", "y"]]) "solo" = some [] :=
  (solo_word_empty_row [["solo", "solo"], ["x", "y"]] "solo").2 (by decide)
    ⟨["solo", "solo"], by decide, by decide⟩

/-- C4: `cosine_similarity` returns the sentinel `-1.0` whenever either
argument's sum of squared magnitudes is exactly `0`, in particular whenever
either argument is the empty vector; no division is performed in that case. -/
theorem cosine_zero_sentinel :
    (∀ v1 v2 : SparseVec, sumSquares v1 = 0 ∨ sumSquares v2 = 0 →
      cosine_similarity v1 v2 = -1)
    ∧ (∀ v : SparseVec, cosine_similarity [] v = -1 ∧ cosine_similarity v [] = -1) := by
  have hmain : ∀ v1 v2 : SparseVec, sumSquares v1 = 0 ∨ sumSquares v2 = 0 →
      cosine_similarity v1 v2 = -1 := by
    intro v1 v2 h
    unfold cosine_similarity
    rw [if_pos h]
  refine ⟨hmain, fun v => ⟨hmain [] v (Or.inl rfl), hmain v [] (Or.inr rfl)⟩⟩

/-- Witness for C4: the sentinel at a concrete pair with an empty first vector. -/
theorem cosine_zero_sentinel_witness :
    cosine_similarity [] [("a", 1)] = -1 :=
  cosine_zero_sentinel.1 [] [("a", 1)] (Or.inl rfl)

theorem foldl_best_no_update {α : Type} [LinearOrder α] (g : String → α) :
    ∀ (l : List String) (m : α) (b : String), (∀ x ∈ l, g x ≤ m) →
    l.foldl (fun acc c => if acc.1 < g c then (g c, c) else acc) (m, b) = (m, b) := by
  intro l
  induction l with
  | nil => intro m b _; rfl
  | cons c cs ih =>
    intro m b hall
    rw [List.foldl_cons, if_neg (not_lt.mpr (hall c (List.mem_cons_self c cs)))]
    exact ih m b (fun x hx => hall x (List.mem_cons_of_mem c hx))

theorem foldl_best_spec {α : Type} [LinearOrder α] (g : String → α) :
    ∀ (l : List String) (m₀ : α) (b₀ : String),
    (l.foldl (fun acc c => if acc.1 < g c then (g c, c) else acc) (m₀, b₀) = (m₀, b₀)
        ∧ ∀ x ∈ l, g x ≤ m₀)
    ∨ (∃ i : ℕ, ∃ hi : i < l.length,
        (l.foldl (fun acc c => if acc.1 < g c then (g c, c) else acc) (m₀, b₀)).2
            = l.get ⟨i, hi⟩
        ∧ (l.foldl (fun acc c => if acc.1 < g c then (g c, c) else acc) (m₀, b₀)).1
            = g (l.get ⟨i, hi⟩)
        ∧ m₀ < g (l.get ⟨i, hi⟩)
        ∧ (∀ j : ℕ, ∀ hj : j < l.length, g (l.get ⟨j, hj⟩) ≤ g (l.get ⟨i, hi⟩))
        ∧ (∀ j : ℕ, ∀ hj : j < l.length, j < i → g (l.get ⟨j, hj⟩) < g (l.get ⟨i, hi⟩))) := by
  intro l
  induction l with
  | nil => intro m₀ b₀; exact Or.inl ⟨rfl, by simp⟩
  | cons c cs ih =>
    intro m₀ b₀
    rw [List.foldl_cons]
    by_cases hc : m₀ < g c
    · rw [if_pos hc]
      rcases ih (g c) c with ⟨hfold, hall⟩ | ⟨i, hi, h1, h2, h3, h4, h5⟩
      · refine Or.inr ⟨0, by simp, ?_, ?_, ?_, ?_, ?_⟩
        · rw [hfold]
          rfl
        · rw [hfold]
          rfl
        · exact hc
        · intro j hj
          cases j with
          | zero => exact le_refl _
          | succ j' => exact hall _ (List.get_mem cs j' (Nat.lt_of_succ_lt_succ hj))
        · intro j hj hj0
          exact absurd hj0 (Nat.not_lt_zero j)
      · refine Or.inr ⟨i + 1, Nat.succ_lt_succ hi, h1, h2, lt_trans hc h3, ?_, ?_⟩
        · intro j hj
          cases j with
          | zero => exact le_of_lt h3
          | succ j' => exact h4 j' (Nat.lt_of_succ_lt_succ hj)
        · intro j hj hji
          cases j with
          | zero => exact h3
          | succ j' => exact h5 j' (Nat.lt_of_succ_lt_succ hj) (Nat.lt_of_succ_lt_succ hji)
    · rw [if_neg hc]
      rcases ih m₀ b₀ with ⟨hfold, hall⟩ | ⟨i, hi, h1, h2, h3, h4, h5⟩
      · refine Or.inl ⟨hfold, ?_⟩
        intro x hx
        rcases List.mem_cons.mp hx with hx0 | hxs
        · rw [hx0]; exact not_lt.mp hc
        · exact hall x hxs
      · refine Or.inr ⟨i + 1, Nat.succ_lt_succ hi, h1, h2, h3, ?_, ?_⟩
        · intro j hj
          cases j with
          | zero => exact le_of_lt (lt_of_le_of_lt (not_lt.mp hc) h3)
          | succ j' => exact h4 j' (Nat.lt_of_succ_lt_succ hj)
        · intro j hj hji
          cases j with
          | zero => exact lt_of_le_of_lt (not_lt.mp hc) h3
          | succ j' => exact h5 j' (Nat.lt_of_succ_lt_succ hj) (Nat.lt_of_succ_lt_succ hji)

theorem most_similar_word_eq_foldl {α : Type} [LinearOrder α] [Neg α] [One α]
    (word : String) (choices : List String) (sd : Table)
    (similarity_fn : SDict → SDict → α) :
    most_similar_word word choices sd similarity_fn
      = (choices.foldl
          (fun acc c => if acc.1 < choiceSim sd similarity_fn word c
                        then (choiceSim sd similarity_fn word c, c) else acc)
          ((-1 : α), choices.headD "")).2 := rfl

/-- Counterexample to C5: with a similarity function that can return values
below `-1`, the selector does not return the first tied-best choice: here the
unique best choice is `"c2"` (similarity `-2` against `-3` for `"c1"`), yet
`"c1"` is returned, because neither similarity exceeds the initial `-1`. -/
theorem most_similar_word_not_first_best_counterexample :
    most_similar_word "w" ["c1", "c2"] [("w", []), ("c1", []), ("c2", [("x", 1)])]
        (fun _ dc => if dc = [] then (-3 : ℚ) else -2) = "c1"
    ∧ choiceSim [("w", []), ("c1", []), ("c2", [("x", 1)])]
        (fun _ dc => if dc = [] then (-3 : ℚ) else -2) "w" "c1"
      < choiceSim [("w", []), ("c1", []), ("c2", [("x", 1)])]
        (fun _ dc => if dc = [] then (-3 : ℚ) else -2) "w" "c2" := by
  constructor
  · decide
  · decide

/-- C5 (amended): the selector iterates the choices in order starting from the
first choice as default with initial best similarity `-1`, replacing the best
only on strictly greater similarity; hence, provided every choice's similarity
is at least `-1` (as with the `-1`-sentinel cosine similarity), it returns the
first of the tied-best choices, and with two choices of equal similarity it
returns the first unconditionally. -/
theorem most_similar_word_first_of_best {α : Type} [LinearOrder α] [Neg α] [One α]
    (word : String) (sd : Table) (similarity_fn : SDict → SDict → α) :
    (∀ (c : String) (cs : List String),
      (∀ x ∈ c :: cs, (-1 : α) ≤ choiceSim sd similarity_fn word x) →
      ∃ i : ℕ, ∃ hi : i < (c :: cs).length,
        most_similar_word word (c :: cs) sd similarity_fn = (c :: cs).get ⟨i, hi⟩
        ∧ (∀ j : ℕ, ∀ hj : j < (c :: cs).length,
            choiceSim sd similarity_fn word ((c :: cs).get ⟨j, hj⟩)
              ≤ choiceSim sd similarity_fn word ((c :: cs).get ⟨i, hi⟩))
        ∧ (∀ j : ℕ, ∀ hj : j < (c :: cs).length, j < i →
            choiceSim sd similarity_fn word ((c :: cs).get ⟨j, hj⟩)
              < choiceSim sd similarity_fn word ((c :: cs).get ⟨i, hi⟩)))
    ∧ (∀ c1 c2 : String,
        choiceSim sd similarity_fn word c1 = choiceSim sd similarity_fn word c2 →
        most_similar_word word [c1, c2] sd similarity_fn = c1) := by
  constructor
  · intro c cs hge
    rw [most_similar_word_eq_foldl]
    rcases foldl_best_spec (choiceSim sd similarity_fn word) (c :: cs) (-1)
        ((c :: cs).headD "") with ⟨hfold, hall⟩ | ⟨i, hi, h1, _h2, _h3, h4, h5⟩
    · refine ⟨0, by simp, ?_, ?_, ?_⟩
      · rw [hfold]
        rfl
      · intro j hj
        exact le_trans (hall _ (List.get_mem _ j hj)) (hge c (List.mem_cons_self c cs))
      · intro j hj hj0
        exact absurd hj0 (Nat.not_lt_zero j)
    · exact ⟨i, hi, h1, h4, h5⟩
  · intro c1 c2 htie
    rw [most_similar_word_eq_foldl]
    rw [List.foldl_cons, List.foldl_cons, List.foldl_nil]
    by_cases h : (-1 : α) < choiceSim sd similarity_fn word c1
    · rw [if_pos h, if_neg (fun hlt => absurd (htie ▸ hlt) (lt_irrefl _))]
    · rw [if_neg h, if_neg (htie ▸ h)]
      rfl

/-- Witness for C5 (amended): a concrete tie between two choices is resolved in
favor of the first. -/
theorem most_similar_word_first_of_best_witness :
    most_similar_word "w" ["a", "b"] [("w", [("x", 1)]), ("a", [("x", 1)]), ("b", [("x", 1)])]
      (fun _ _ => (5 : ℚ)) = "a" :=
  (most_similar_word_first_of_best "w"
      [("w", [("x", 1)]), ("a", [("x", 1)]), ("b", [("x", 1)])]
      (fun _ _ => (5 : ℚ))).2 "a" "b" (by decide)

/-- C6: when the target word or a choice is absent from the descriptor table,
the similarity used for that pair is `-1` and the injected similarity function
is not consulted; consequently, when the target word is unknown, the first
choice is returned whatever the table holds, and no error is raised. -/
theorem most_similar_word_unknown_degrades {α : Type} [LinearOrder α] [Neg α] [One α]
    (sd : Table) (similarity_fn : SDict → SDict → α) (word : String) :
    (dlookup sd word = none → ∀ c, choiceSim sd similarity_fn word c = -1)
    ∧ (∀ c, dlookup sd c = none → choiceSim sd similarity_fn word c = -1)
    ∧ (dlookup sd word = none → ∀ (c : String) (cs : List String),
        most_similar_word word (c :: cs) sd similarity_fn = c) := by
  have habsent : dlookup sd word = none → ∀ c, choiceSim sd similarity_fn word c = -1 := by
    intro h c
    unfold choiceSim
    rw [h]
  refine ⟨habsent, ?_, ?_⟩
  · intro c h
    unfold choiceSim
    rw [h]
    cases dlookup sd word <;> rfl
  · intro h c cs
    rw [most_similar_word_eq_foldl]
    rw [foldl_best_no_update (choiceSim sd similarity_fn word) (c :: cs) (-1)
      ((c :: cs).headD "") (fun x _ => le_of_eq (habsent h x))]
    rfl

/-- Witness for C6: an unknown target word makes the selector return the first
choice on a concrete table. -/
theorem most_similar_word_unknown_degrades_witness :
    most_similar_word "nosuchword" ["a", "b"]
      [("a", [("b", 1)]), ("b", [("a", 1)])]
      (fun _ _ => (5 : ℚ)) = "a" :=
  (most_similar_word_unknown_degrades
      [("a", [("b", 1)]), ("b", [("a", 1)])]
      (fun _ _ => (5 : ℚ)) "nosuchword").2.2 (by decide) "a" ["b"]

theorem foldl_questionStep {α : Type} [LinearOrder α] [Neg α] [One α]
    (sd : Table) (similarity_fn : SDict → SDict → α) :
    ∀ (lines : List String) (a b : ℕ),
    lines.foldl (questionStep sd similarity_fn) (a, b)
      = (a + correctCount lines sd similarity_fn, b + (validLines lines).length) := by
  intro lines
  induction lines with
  | nil => intro a b; simp [correctCount, validLines]
  | cons l ls ih =>
    intro a b
    rw [List.foldl_cons]
    by_cases hl : 3 ≤ (pySplit l).length
    · have hstep : questionStep sd similarity_fn (a, b) l
          = ((if most_similar_word ((pySplit l).headD "") ((pySplit l).drop 2) sd similarity_fn
              = (pySplit l).getD 1 "" then a + 1 else a), b + 1) := by
        unfold questionStep
        rw [if_pos hl]
      have hvl : validLines (l :: ls) = l :: validLines ls := by
        unfold validLines
        rw [List.filter_cons, if_pos (by simp [hl])]
      have hcc : correctCount (l :: ls) sd similarity_fn
          = correctCount ls sd similarity_fn
            + (if most_similar_word ((pySplit l).headD "") ((pySplit l).drop 2) sd similarity_fn
               = (pySplit l).getD 1 "" then 1 else 0) := by
        unfold correctCount
        rw [hvl, List.countP_cons]
        by_cases hg : most_similar_word ((pySplit l).headD "") ((pySplit l).drop 2)
            sd similarity_fn = (pySplit l).getD 1 ""
        · simp [hg]
        · simp [hg]
      rw [hstep, ih, hvl, hcc]
      by_cases hg : most_similar_word ((pySplit l).headD "") ((pySplit l).drop 2)
          sd similarity_fn = (pySplit l).getD 1 ""
      · simp only [if_pos hg, List.length_cons, Prod.mk.injEq]
        exact ⟨by omega, by omega⟩
      · simp only [if_neg hg, List.length_cons, Prod.mk.injEq]
        exact ⟨by omega, by omega⟩
    · have hstep : questionStep sd similarity_fn (a, b) l = (a, b) := by
        unfold questionStep
        rw [if_neg hl]
      have hvl : validLines (l :: ls) = validLines ls := by
        unfold validLines
        rw [List.filter_cons, if_neg (by simp [hl])]
      have hcc : correctCount (l :: ls) sd similarity_fn = correctCount ls sd similarity_fn := by
        unfold correctCount
        rw [hvl]
      rw [hstep, ih, hvl, hcc]

/-- C9: `run_similarity_test` skips lines with fewer than 3 whitespace-separated
fields, counts a question correct exactly when the selector's choice equals the
labeled answer, returns 100 times the fraction of valid questions answered
correctly — a value between 0 and 100 — and returns 0 when there are no valid
questions instead of dividing by zero. -/
theorem run_similarity_test_characterization {α : Type} [LinearOrder α] [Neg α] [One α] :
    (∀ (lines : List String) (sd : Table) (similarity_fn : SDict → SDict → α),
      run_similarity_test lines sd similarity_fn
        = if (validLines lines).length = 0 then 0
          else ((correctCount lines sd similarity_fn : ℚ)
                / ((validLines lines).length : ℚ)) * 100)
    ∧ (∀ (lines : List String) (sd : Table) (similarity_fn : SDict → SDict → α),
        0 ≤ run_similarity_test lines sd similarity_fn
        ∧ run_similarity_test lines sd similarity_fn ≤ 100)
    ∧ (∀ (pre post : List String) (bad : String) (sd : Table)
          (similarity_fn : SDict → SDict → α), (pySplit bad).length < 3 →
        run_similarity_test (pre ++ bad :: post) sd similarity_fn
          = run_similarity_test (pre ++ post) sd similarity_fn) := by
  have hchar : ∀ (lines : List String) (sd : Table) (similarity_fn : SDict → SDict → α),
      run_similarity_test lines sd similarity_fn
        = if (validLines lines).length = 0 then 0
          else ((correctCount lines sd similarity_fn : ℚ)
                / ((validLines lines).length : ℚ)) * 100 := by
    intro lines sd similarity_fn
    unfold run_similarity_test
    rw [foldl_questionStep sd similarity_fn lines 0 0]
    simp only [Nat.zero_add]
  refine ⟨hchar, ?_, ?_⟩
  · intro lines sd similarity_fn
    rw [hchar]
    by_cases h : (validLines lines).length = 0
    · rw [if_pos h]
      norm_num
    · rw [if_neg h]
      have hlen : 0 < ((validLines lines).length : ℚ) :=
        Nat.cast_pos.mpr (Nat.pos_of_ne_zero h)
      have hle : (correctCount lines sd similarity_fn : ℚ)
          ≤ ((validLines lines).length : ℚ) := by
        exact_mod_cast List.countP_le_length _
      constructor
      · apply mul_nonneg (div_nonneg (Nat.cast_nonneg _) (Nat.cast_nonneg _))
        norm_num
      · calc (correctCount lines sd similarity_fn : ℚ) / ((validLines lines).length : ℚ) * 100
            ≤ 1 * 100 :=
              mul_le_mul_of_nonneg_right ((div_le_one hlen).mpr hle) (by norm_num)
          _ = 100 := by norm_num
  · intro pre post bad sd similarity_fn hbad
    have hv : validLines (pre ++ bad :: post) = validLines (pre ++ post) := by
      unfold validLines
      rw [List.filter_append, List.filter_append, List.filter_cons,
        if_neg (by simp [not_le.mpr hbad])]
    have hc : correctCount (pre ++ bad :: post) sd similarity_fn
        = correctCount (pre ++ post) sd similarity_fn := by
      unfold correctCount
      rw [hv]
    rw [hchar, hchar, hv, hc]

/-- Witness for C9: inserting a two-field line into a concrete question file
leaves the reported score unchanged. -/
theorem run_similarity_test_characterization_witness :
    run_similarity_test (["cat dog dog tree"] ++ "xy" :: [])
        [("cat", [("dog", 2)]), ("dog", [("cat", 2)]), ("tree", [("x", 1)])]
        (fun _ _ => (5 : ℚ))
      = run_similarity_test (["cat dog dog tree"] ++ [])
        [("cat", [("dog", 2)]), ("dog", [("cat", 2)]), ("tree", [("x", 1)])]
        (fun _ _ => (5 : ℚ)) :=
  run_similarity_test_characterization.2.2 ["cat dog dog tree"] [] "xy"
    [("cat", [("dog", 2)]), ("dog", [("cat", 2)]), ("tree", [("x", 1)])]
    (fun _ _ => (5 : ℚ)) (by decide)

theorem sumSquares_eq_listsum (v : SparseVec) :
    sumSquares v = (v.map (fun p => p.2 * p.2)).sum := by
  have h : ∀ (l : List (String × ℚ)) (c : ℚ),
      l.foldl (fun acc p => acc + p.2 * p.2) c = c + (l.map (fun p => p.2 * p.2)).sum := by
    intro l
    induction l with
    | nil => intro c; simp
    | cons p ps ih =>
      intro c
      rw [List.foldl_cons, ih, List.map_cons, List.sum_cons]
      ring
  rw [sumSquares, h]
  ring

theorem dotProd_eq_listsum (v1 v2 : SparseVec) :
    dotProd v1 v2 = (v1.map (fun p =>
      match dlookup v2 p.1 with
      | some w => p.2 * w
      | none => 0)).sum := by
  have h : ∀ (l : List (String × ℚ)) (c : ℚ),
      l.foldl (fun acc p =>
        acc + match dlookup v2 p.1 with
              | some w => p.2 * w
              | none => 0) c
        = c + (l.map (fun p =>
            match dlookup v2 p.1 with
            | some w => p.2 * w
            | none => 0)).sum := by
    intro l
    induction l with
    | nil => intro c; simp
    | cons p ps ih =>
      intro c
      rw [List.foldl_cons, ih, List.map_cons, List.sum_cons]
      ring
  rw [dotProd, h]
  ring

theorem mem_of_dlookup {β : Type} (d : List (String × β)) (k : String) (w : β)
    (h : dlookup d k = some w) : (k, w) ∈ d := by
  induction d with
  | nil => simp [dlookup] at h
  | cons p rest ih =>
    obtain ⟨pk, pv⟩ := p
    by_cases hp : pk = k
    · simp only [dlookup, hp, if_pos] at h
      rw [Option.some_inj] at h
      rw [← hp, ← h]
      exact List.mem_cons_self _ _
    · simp only [dlookup, hp, if_false] at h
      exact List.mem_cons_of_mem _ (ih h)

theorem dlookup_eq_none_iff {β : Type} (d : List (String × β)) (k : String) :
    dlookup d k = none ↔ k ∉ d.map Prod.fst := by
  induction d with
  | nil => simp [dlookup]
  | cons p rest ih =>
    obtain ⟨pk, pv⟩ := p
    by_cases hp : pk = k
    · simp [dlookup, hp]
    · simp only [dlookup, if_neg hp, List.map_cons, List.mem_cons]
      rw [ih]
      constructor
      · intro hnone hmem
        rcases hmem with he | hm
        · exact hp he.symm
        · exact hnone hm
      · intro hnot hm
        exact hnot (Or.inr hm)

theorem dlookup_of_mem {β : Type} (d : List (String × β)) (hWF : WFDict d)
    (p : String × β) (hp : p ∈ d) : dlookup d p.1 = some p.2 := by
  induction d with
  | nil => simp at hp
  | cons q rest ih =>
    unfold WFDict at hWF
    rw [List.map_cons] at hWF
    obtain ⟨hq_nin, hrest⟩ := List.nodup_cons.mp hWF
    rcases List.mem_cons.mp hp with h0 | hmem
    · rw [h0]
      obtain ⟨qk, qv⟩ := q
      simp [dlookup]
    · have hne : q.1 ≠ p.1 := by
        intro he
        exact hq_nin (he ▸ List.mem_map.mpr ⟨p, hmem, rfl⟩)
      obtain ⟨qk, qv⟩ := q
      simp only [dlookup, hne, if_false]
      exact ih hrest hmem

theorem getV_of_mem (v : SparseVec) (hWF : WFDict v) (p : String × ℚ) (hp : p ∈ v) :
    getV v p.1 = p.2 := by
  unfold getV
  rw [dlookup_of_mem v hWF p hp]
  rfl

theorem sumSquares_eq_finsum (v : SparseVec) (hWF : WFDict v) :
    sumSquares v = ∑ k in (v.map Prod.fst).toFinset, getV v k ^ 2 := by
  rw [sumSquares_eq_listsum, List.sum_toFinset _ hWF, List.map_map]
  apply congrArg List.sum
  apply List.map_congr_left
  intro p hp
  simp only [Function.comp]
  rw [getV_of_mem v hWF p hp]
  ring

theorem dotProd_eq_finsum (v1 v2 : SparseVec) (h1 : WFDict v1) :
    dotProd v1 v2
      = ∑ k in (v1.map Prod.fst).toFinset ∩ (v2.map Prod.fst).toFinset,
          getV v1 k * getV v2 k := by
  rw [dotProd_eq_listsum, ← Finset.sum_ite_mem, List.sum_toFinset _ h1, List.map_map]
  apply congrArg List.sum
  apply List.map_congr_left
  intro p hp
  simp only [Function.comp]
  cases hh : dlookup v2 p.1 with
  | none =>
    rw [if_neg (fun hmem => (dlookup_eq_none_iff v2 p.1).mp hh (List.mem_toFinset.mp hmem))]
  | some w =>
    rw [if_pos (List.mem_toFinset.mpr
        (List.mem_map.mpr ⟨(p.1, w), mem_of_dlookup v2 p.1 w hh, rfl⟩)),
      getV_of_mem v1 h1 p hp]
    unfold getV
    rw [hh]
    rfl

theorem sumSquares_nonneg (v : SparseVec) : 0 ≤ sumSquares v := by
  rw [sumSquares_eq_listsum]
  apply List.sum_nonneg
  intro x hx
  obtain ⟨p, _, rfl⟩ := List.mem_map.mp hx
  exact mul_self_nonneg _

theorem getV_nonneg (v : SparseVec) (hv : ∀ p ∈ v, 0 ≤ p.2) (k : String) :
    0 ≤ getV v k := by
  unfold getV
  cases hh : dlookup v k with
  | none => exact le_refl 0
  | some w => exact hv (k, w) (mem_of_dlookup v k w hh)

theorem dotProd_nonneg (v1 v2 : SparseVec) (hv1 : ∀ p ∈ v1, 0 ≤ p.2)
    (hv2 : ∀ p ∈ v2, 0 ≤ p.2) : 0 ≤ dotProd v1 v2 := by
  rw [dotProd_eq_listsum]
  apply List.sum_nonneg
  intro x hx
  obtain ⟨p, hp, rfl⟩ := List.mem_map.mp hx
  cases hh : dlookup v2 p.1 with
  | none => exact le_refl 0
  | some w => exact mul_nonneg (hv1 p hp) (hv2 (p.1, w) (mem_of_dlookup v2 p.1 w hh))

theorem dotProd_sq_le (v1 v2 : SparseVec) (h1 : WFDict v1) (h2 : WFDict v2) :
    dotProd v1 v2 ^ 2 ≤ sumSquares v1 * sumSquares v2 := by
  rw [dotProd_eq_finsum v1 v2 h1, sumSquares_eq_finsum v1 h1, sumSquares_eq_finsum v2 h2]
  calc (∑ k in (v1.map Prod.fst).toFinset ∩ (v2.map Prod.fst).toFinset,
          getV v1 k * getV v2 k) ^ 2
      ≤ (∑ k in (v1.map Prod.fst).toFinset ∩ (v2.map Prod.fst).toFinset, getV v1 k ^ 2)
        * (∑ k in (v1.map Prod.fst).toFinset ∩ (v2.map Prod.fst).toFinset, getV v2 k ^ 2) :=
        Finset.sum_mul_sq_le_sq_mul_sq _ _ _
    _ ≤ (∑ k in (v1.map Prod.fst).toFinset, getV v1 k ^ 2)
        * (∑ k in (v2.map Prod.fst).toFinset, getV v2 k ^ 2) := by
        apply mul_le_mul
        · exact Finset.sum_le_sum_of_subset_of_nonneg (Finset.inter_subset_left)
            (fun k _ _ => sq_nonneg _)
        · exact Finset.sum_le_sum_of_subset_of_nonneg (Finset.inter_subset_right)
            (fun k _ _ => sq_nonneg _)
        · exact Finset.sum_nonneg (fun k _ => sq_nonneg _)
        · exact Finset.sum_nonneg (fun k _ => sq_nonneg _)

/-- C10: `cosine_similarity` is commutative: for well-formed sparse vectors the
two orders agree, and whenever either sum of squares is `0` (in particular for
empty or all-zero vectors) both orders yield the `-1.0` sentinel. -/
theorem cosine_similarity_comm :
    (∀ v1 v2 : SparseVec, WFDict v1 → WFDict v2 →
      cosine_similarity v1 v2 = cosine_similarity v2 v1)
    ∧ (∀ v1 v2 : SparseVec, sumSquares v1 = 0 ∨ sumSquares v2 = 0 →
      cosine_similarity v1 v2 = cosine_similarity v2 v1
        ∧ cosine_similarity v1 v2 = -1) := by
  have hsent : ∀ v1 v2 : SparseVec, sumSquares v1 = 0 ∨ sumSquares v2 = 0 →
      cosine_similarity v1 v2 = cosine_similarity v2 v1
        ∧ cosine_similarity v1 v2 = -1 := by
    intro v1 v2 h
    have ha : cosine_similarity v1 v2 = -1 := by
      unfold cosine_similarity
      rw [if_pos h]
    have hb : cosine_similarity v2 v1 = -1 := by
      unfold cosine_similarity
      rw [if_pos (Or.symm h)]
    exact ⟨ha.trans hb.symm, ha⟩
  refine ⟨?_, hsent⟩
  intro v1 v2 h1 h2
  by_cases hz : sumSquares v1 = 0 ∨ sumSquares v2 = 0
  · exact (hsent v1 v2 hz).1
  · have hdot : dotProd v1 v2 = dotProd v2 v1 := by
      rw [dotProd_eq_finsum v1 v2 h1, dotProd_eq_finsum v2 v1 h2, Finset.inter_comm]
      exact Finset.sum_congr rfl (fun k _ => mul_comm _ _)
    unfold cosine_similarity
    rw [if_neg hz, if_neg (fun hsym => hz (Or.symm hsym)), hdot, mul_comm]

/-- Witness for C10: commutativity at a concrete pair of vectors. -/
theorem cosine_similarity_comm_witness :
    cosine_similarity [("a", 1), ("b", 2)] [("b", 3)]
      = cosine_similarity [("b", 3)] [("a", 1), ("b", 2)] :=
  cosine_similarity_comm.1 [("a", 1), ("b", 2)] [("b", 3)]
    (by unfold WFDict; decide) (by unfold WFDict; decide)

/-- C7: for well-formed non-zero sparse vectors with non-negative magnitudes,
`cosine_similarity` lies in `[0, 1]`; and on the documented example pair the
value is within `0.01` of `0.70`. -/
theorem cosine_similarity_bounds :
    (∀ v1 v2 : SparseVec, WFDict v1 → WFDict v2 →
      (∀ p ∈ v1, 0 ≤ p.2) → (∀ p ∈ v2, 0 ≤ p.2) →
      sumSquares v1 ≠ 0 → sumSquares v2 ≠ 0 →
      0 ≤ cosine_similarity v1 v2 ∧ cosine_similarity v1 v2 ≤ 1)
    ∧ |cosine_similarity [("a", 1), ("b", 2), ("c", 3)] [("b", 4), ("c", 5), ("d", 6)]
        - 0.70| ≤ 0.01 := by
  constructor
  · intro v1 v2 h1 h2 hv1 hv2 hz1 hz2
    have hb1 : (0 : ℚ) < sumSquares v1 := (sumSquares_nonneg v1).lt_of_ne (Ne.symm hz1)
    have hb2 : (0 : ℚ) < sumSquares v2 := (sumSquares_nonneg v2).lt_of_ne (Ne.symm hz2)
    have hcond : ¬(sumSquares v1 = 0 ∨ sumSquares v2 = 0) := by
      push_neg
      exact ⟨hz1, hz2⟩
    unfold cosine_similarity
    rw [if_neg hcond]
    have hb1R : (0 : ℝ) < (sumSquares v1 : ℝ) := by exact_mod_cast hb1
    have hb2R : (0 : ℝ) < (sumSquares v2 : ℝ) := by exact_mod_cast hb2
    have htop : (0 : ℝ) ≤ (dotProd v1 v2 : ℝ) := by
      exact_mod_cast dotProd_nonneg v1 v2 hv1 hv2
    have hsq : ((dotProd v1 v2 : ℝ)) ^ 2 ≤ (sumSquares v1 : ℝ) * (sumSquares v2 : ℝ) := by
      exact_mod_cast dotProd_sq_le v1 v2 h1 h2
    have hden : 0 < Real.sqrt ((sumSquares v1 : ℝ)) * Real.sqrt ((sumSquares v2 : ℝ)) :=
      mul_pos (Real.sqrt_pos.mpr hb1R) (Real.sqrt_pos.mpr hb2R)
    constructor
    · exact div_nonneg htop (le_of_lt hden)
    · rw [div_le_one hden]
      have hmul : Real.sqrt ((sumSquares v1 : ℝ)) * Real.sqrt ((sumSquares v2 : ℝ))
          = Real.sqrt ((sumSquares v1 : ℝ) * (sumSquares v2 : ℝ)) :=
        (Real.sqrt_mul (le_of_lt hb1R) _).symm
      rw [hmul]
      calc (dotProd v1 v2 : ℝ) = Real.sqrt (((dotProd v1 v2 : ℝ)) ^ 2) :=
            (Real.sqrt_sq htop).symm
        _ ≤ Real.sqrt ((sumSquares v1 : ℝ) * (sumSquares v2 : ℝ)) := Real.sqrt_le_sqrt hsq
  · have hA : sumSquares [("a", 1), ("b", 2), ("c", 3)] = 14 := by
      show (0 : ℚ) + 1 * 1 + 2 * 2 + 3 * 3 = 14
      norm_num
    have hB : sumSquares [("b", 4), ("c", 5), ("d", 6)] = 77 := by
      show (0 : ℚ) + 4 * 4 + 5 * 5 + 6 * 6 = 77
      norm_num
    have hD : dotProd [("a", 1), ("b", 2), ("c", 3)] [("b", 4), ("c", 5), ("d", 6)] = 23 := by
      show (0 : ℚ) + 0 + 2 * 4 + 3 * 5 = 23
      norm_num
    unfold cosine_similarity
    rw [hA, hB, hD, if_neg (by norm_num)]
    push_cast
    rw [← Real.sqrt_mul (by norm_num : (0 : ℝ) ≤ 14)]
    rw [(by norm_num : (14 : ℝ) * 77 = 1078)]
    have hs2 : Real.sqrt 1078 ^ 2 = 1078 := Real.sq_sqrt (by norm_num)
    have hs0 : 0 < Real.sqrt 1078 := Real.sqrt_pos.mpr (by norm_num)
    rw [abs_le]
    constructor
    · have hlo : (0.69 : ℝ) ≤ 23 / Real.sqrt 1078 := by
        rw [le_div_iff₀ hs0]
        nlinarith [hs2, hs0]
      linarith
    · have hhi : (23 : ℝ) / Real.sqrt 1078 ≤ 0.71 := by
        rw [div_le_iff₀ hs0]
        nlinarith [hs2, hs0]
      linarith

/-- Witness for C7: the bounds at the documented example pair of count vectors. -/
theorem cosine_similarity_bounds_witness :
    0 ≤ cosine_similarity [("a", 1), ("b", 2), ("c", 3)] [("b", 4), ("c", 5), ("d", 6)]
    ∧ cosine_similarity [("a", 1), ("b", 2), ("c", 3)] [("b", 4), ("c", 5), ("d", 6)] ≤ 1 :=
  cosine_similarity_bounds.1 [("a", 1), ("b", 2), ("c", 3)] [("b", 4), ("c", 5), ("d", 6)]
    (by unfold WFDict; decide) (by unfold WFDict; decide)
    (by decide) (by decide)
    (by show (0 : ℚ) + 1 * 1 + 2 * 2 + 3 * 3 ≠ 0; norm_num)
    (by show (0 : ℚ) + 4 * 4 + 5 * 5 + 6 * 6 ≠ 0; norm_num)
